import Mathlib

/-!
Verification of the Event Reconciliation & Normalization Engine of the
event-monitoring scraper (`main.py`).  The definitions below are a shallow
embedding of `save_to_excel`'s merge loop, of the nested `parse_date` and
`sort_key` helpers, and of the persisted-store loading filter.  Python
strings are modelled as `String` / `List Char`, dictionaries keyed by the
`(title, url, source)` identity key as association lists updated in place,
and the two regular expressions of `parse_date` as explicit backtracking
matchers over `List Char` that follow Python's leftmost/greedy search order.
-/

namespace EventMon

/-- The literal placeholder string used by the scrapers for an unknown
field (`'See details'` in `main.py`). -/
def sentinel : String := "See details"

/-- An event record: the five columns of the persisted store.  Adapters
guarantee all five fields are present (Python dicts with these keys). -/
structure Event where
  title : String
  date : String
  location : String
  url : String
  source : String
deriving DecidableEq, Repr

/-- The composite identity key `(title, url, source)` from
`key = (event['title'], event['url'], event['source'])`. -/
def eventKey (e : Event) : String × String × String :=
  (e.title, e.url, e.source)

/-- One update of an existing stored record by an incoming record with the
same key: lines 57-68 of `main.py`.  Each of `date` and `location` is
overwritten exactly when the stored value is the sentinel and the incoming
value is not; the returned flag says whether either field changed. -/
def enrich (old new : Event) : Event × Bool :=
  let ud : Bool := old.date == sentinel && new.date != sentinel
  let ul : Bool := old.location == sentinel && new.location != sentinel
  ({ old with
      date := if ud then new.date else old.date
      location := if ul then new.location else old.location },
   ud || ul)

/-- Processing of a single incoming event against the store (one iteration
of the `for event in events` loop).  The store is the dict's item list in
insertion order: an absent key appends at the end (`new = true`), a present
key updates the first entry with that key in place.  Returns
`(store, isNew, isUpdated)`. -/
def step1 (e : Event) : List Event → List Event × Bool × Bool
  | [] => ([e], true, false)
  | x :: xs =>
    if eventKey x = eventKey e then
      ((enrich x e).1 :: xs, false, (enrich x e).2)
    else
      let r := step1 e xs
      (x :: r.1, r.2.1, r.2.2)

/-- The whole merge loop of `save_to_excel` (lines 50-68): fold the
incoming batch over the persisted store, counting new and updated
records.  Returns `(store, new_count, updated_count)`. -/
def reconcile (store : List Event) : List Event → List Event × Nat × Nat
  | [] => (store, 0, 0)
  | e :: es =>
    let s := step1 e store
    let r := reconcile s.1 es
    (r.1, (if s.2.1 then 1 else 0) + r.2.1, (if s.2.2 then 1 else 0) + r.2.2)

/-- Dictionary lookup by identity key (first entry with the key). -/
def lookupE (k : String × String × String) : List Event → Option Event
  | [] => none
  | x :: xs => if eventKey x = k then some x else lookupE k xs

/-- The cumulative effect of a run of same-key incoming records on the
(optional) stored record under one key: `none` means the key is absent,
the first incoming record is then inserted and further ones enrich it. -/
def applyAll : Option Event → List Event → Option Event
  | o, [] => o
  | none, e :: es => applyAll (some e) es
  | some r, e :: es => applyAll (some (enrich r e).1) es

/-- First value in the list that is not the sentinel, if any. -/
def firstConcrete : List String → Option String
  | [] => none
  | d :: ds => if d = sentinel then firstConcrete ds else some d

/-- Final value of one field after enrichment by a list of incoming field
values: the stored value if concrete, else the first concrete incoming
value, else the sentinel. -/
def fillVal (v : String) (l : List String) : String :=
  if v = sentinel then (firstConcrete l).getD sentinel else v

/-! ### Date normalizer: the nested `parse_date` of `save_to_excel`

The two regular expressions are modelled as explicit matchers over
`List Char`.  Each quantifier produces its candidate splits in Python's
backtracking priority order (greedy: longer consumption first, an optional
element present before absent) and `firstSome?` commits to the first
alternative under which the rest of the pattern succeeds.  `\d` is ASCII
digits, `\s` ASCII whitespace, `\w` ASCII word characters plus the German
letters appearing in month names. -/

/-- ASCII decimal digit, the `\d` character class on the inputs at hand. -/
def isDigitChar (c : Char) : Bool := '0' ≤ c && c ≤ '9'

/-- Whitespace, the `\s` character class. -/
def isSpaceChar (c : Char) : Bool :=
  c = ' ' || c = '\t' || c = '\n' || c = '\r' || c = '\x0b' || c = '\x0c'

/-- Word character, the `\w` character class (ASCII letters, digits,
underscore, and the German letters used by the month names). -/
def isWordChar (c : Char) : Bool :=
  isDigitChar c || ('a' ≤ c && c ≤ 'z') || ('A' ≤ c && c ≤ 'Z') || c = '_'
    || c = 'ä' || c = 'ö' || c = 'ü' || c = 'Ä' || c = 'Ö' || c = 'Ü' || c = 'ß'

/-- `str.lower` restricted to the characters that can reach the month-name
lookup: ASCII upper-case letters and the German umlauts. -/
def lowerChar (c : Char) : Char :=
  if 'A' ≤ c && c ≤ 'Z' then Char.ofNat (c.toNat + 32)
  else if c = 'Ä' then 'ä'
  else if c = 'Ö' then 'ö'
  else if c = 'Ü' then 'ü'
  else c

/-- Numeric value of a list of digit characters (`int` on the captured
group). -/
def listToNat (cs : List Char) : Nat :=
  cs.foldl (fun a c => 10 * a + (c.toNat - '0'.toNat)) 0

/-- First alternative of `f` over `l` that produces a value: the
backtracking search order of the regex engine. -/
def firstSome? (f : α → Option β) : List α → Option β
  | [] => none
  | a :: l =>
    match f a with
    | some b => some b
    | none => firstSome? f l

/-- Candidate matches of greedy `\d{1,2}`: the captured digits and the
rest of the input, two digits before one. -/
def take2or1 (cs : List Char) : List (List Char × List Char) :=
  match cs with
  | [] => []
  | [c1] => if isDigitChar c1 then [([c1], [])] else []
  | c1 :: c2 :: rest =>
    if isDigitChar c1 then
      if isDigitChar c2 then [([c1, c2], rest), ([c1], c2 :: rest)]
      else [([c1], c2 :: rest)]
    else []

/-- Candidate rests of a greedy optional literal character (`\.?`, `/?`):
consuming the character first when it is there. -/
def optChar (ch : Char) (cs : List Char) : List (List Char) :=
  match cs with
  | [] => [[]]
  | c :: rest => if c = ch then [rest, c :: rest] else [c :: rest]

/-- Candidate rests of greedy `\s*`: longest consumed run first, down to
consuming nothing. -/
def spacesSplits (cs : List Char) : List (List Char) :=
  match cs with
  | [] => [[]]
  | c :: rest => if isSpaceChar c then spacesSplits rest ++ [c :: rest] else [c :: rest]

/-- Candidate matches of greedy `(\d{1,2})?`: two digits, one digit, then
absent. -/
def optDigits12 (cs : List Char) : List (Option (List Char) × List Char) :=
  ((take2or1 cs).map fun p => (some p.1, p.2)) ++ [(none, cs)]

/-- Candidate matches of greedy `(\w+)`: nonempty word-character prefixes,
longest first. -/
def wordTakes : List Char → List (List Char × List Char)
  | [] => []
  | c :: rest =>
    if isWordChar c then
      ((wordTakes rest).map fun p => (c :: p.1, p.2)) ++ [([c], rest)]
    else []

/-- Candidate rests of greedy `\s+`: at least one whitespace character,
longest consumed run first. -/
def spacesPlus (cs : List Char) : List (List Char) :=
  match cs with
  | [] => []
  | c :: rest => if isSpaceChar c then spacesSplits rest else []

/-- `\d{4}`: exactly four digit characters, rest ignored by the pattern. -/
def digits4 (cs : List Char) : Option (List Char × List Char) :=
  match cs with
  | [] => none
  | a :: r1 =>
    if isDigitChar a then
      match r1 with
      | [] => none
      | b :: r2 =>
        if isDigitChar b then
          match r2 with
          | [] => none
          | c :: r3 =>
            if isDigitChar c then
              match r3 with
              | [] => none
              | d :: rest =>
                if isDigitChar d then some ([a, b, c, d], rest) else none
            else none
        else none
    else none

/-- A mandatory literal `\.`: the rest after the leading dot, when there
is one. -/
def headDot : List Char → Option (List Char)
  | [] => none
  | c :: r => if c = '.' then some r else none

/-- `re.match(r'(\d{1,2})\.(\d{1,2})\.(\d{4})', s)` returning
`(day, month, year)` group values. -/
def matchP1 (cs : List Char) : Option (Nat × Nat × Nat) :=
  firstSome? (fun dr =>
    match headDot dr.2 with
    | some r2 =>
      firstSome? (fun mr =>
        match headDot mr.2 with
        | some r4 =>
          match digits4 r4 with
          | some (g4, _) => some (listToNat dr.1, listToNat mr.1, listToNat g4)
          | none => none
        | none => none) (take2or1 r2)
    | none => none) (take2or1 cs)

/-- `re.match(r'(\d{1,2})\.?/?\.?\s*(\d{1,2})?\.?\s*(\w+)\s+(\d{4})', s)`
returning the group values `(day digits, month-name characters, year)`. -/
def matchP2 (cs : List Char) : Option (Nat × List Char × Nat) :=
  firstSome? (fun g1r =>
  firstSome? (fun r2 =>
  firstSome? (fun r3 =>
  firstSome? (fun r4 =>
  firstSome? (fun r5 =>
  firstSome? (fun g2r =>
  firstSome? (fun r7 =>
  firstSome? (fun r8 =>
  firstSome? (fun g3r =>
  firstSome? (fun r10 =>
    match digits4 r10 with
    | some (g4, _) => some (listToNat g1r.1, g3r.1, listToNat g4)
    | none => none)
    (spacesPlus g3r.2))
    (wordTakes r8))
    (spacesSplits r7))
    (optChar '.' g2r.2))
    (optDigits12 r5))
    (spacesSplits r4))
    (optChar '.' r3))
    (optChar '/' r2))
    (optChar '.' g1r.2))
    (take2or1 cs)

/-- The `month_map` dict of `parse_date`, as an association list. -/
def monthEntries : List (String × Nat) :=
  [("januar", 1), ("january", 1), ("jan", 1),
   ("februar", 2), ("february", 2), ("feb", 2),
   ("märz", 3), ("march", 3), ("mar", 3),
   ("april", 4), ("apr", 4),
   ("mai", 5), ("may", 5),
   ("juni", 6), ("june", 6), ("jun", 6),
   ("juli", 7), ("july", 7), ("jul", 7),
   ("august", 8), ("aug", 8),
   ("september", 9), ("sep", 9), ("sept", 9),
   ("oktober", 10), ("october", 10), ("oct", 10),
   ("november", 11), ("nov", 11),
   ("dezember", 12), ("december", 12), ("dec", 12)]

/-- `month_map[month_name]` when `month_name in month_map`. -/
def monthMap (name : String) : Option Nat :=
  (monthEntries.find? fun p => p.1 == name).map fun p => p.2

/-- Gregorian leap year, as `datetime` computes it. -/
def isLeap (y : Nat) : Bool := (y % 4 == 0 && y % 100 != 0) || y % 400 == 0

/-- Days in a month, as `datetime` validates them. -/
def daysInMonth (y m : Nat) : Nat :=
  if m = 2 then (if isLeap y then 29 else 28)
  else if m = 4 || m = 6 || m = 9 || m = 11 then 30
  else 31

/-- `datetime(y, m, d)` succeeds: `MINYEAR ≤ y ≤ MAXYEAR`, a real month
and a real day of that month; otherwise `ValueError` is raised and the
code falls through. -/
def validDate (y m d : Nat) : Bool :=
  1 ≤ y && y ≤ 9999 && 1 ≤ m && m ≤ 12 && 1 ≤ d && d ≤ daysInMonth y m

/-- A concrete calendar date, the payload of a successful parse
(`datetime` restricted to its date components). -/
structure CalDate where
  year : Nat
  month : Nat
  day : Nat
deriving DecidableEq, Repr

/-- The first attempt of `parse_date`: the `DD.MM.YYYY` regex followed by
the `datetime` construction, whose `ValueError` (modelled by the
`validDate` test) falls through. -/
def parseP1 (cs : List Char) : Option CalDate :=
  match matchP1 cs with
  | some (d, m, y) => if validDate y m d then some (CalDate.mk y m d) else none
  | none => none

/-- The second attempt of `parse_date`: the day-range/month-name regex,
the `month_map` lookup on the lowercased captured name, and the
`datetime` construction. -/
def parseP2 (cs : List Char) : Option CalDate :=
  match matchP2 cs with
  | some (d, g3, y) =>
    match monthMap (String.mk (g3.map lowerChar)) with
    | some m => if validDate y m d then some (CalDate.mk y m d) else none
    | none => none
  | none => none

/-- The nested `parse_date` of `save_to_excel` over the characters of the
input: `None` for empty input or the sentinel; else the first regex with
its `datetime` validation; on its failure (no match or `ValueError`) the
second regex with the month-name lookup and `datetime` validation; else
`None`. -/
def parse_date (cs : List Char) : Option CalDate :=
  if cs = [] ∨ cs = sentinel.toList then none
  else
    match parseP1 cs with
    | some dt => some dt
    | none => parseP2 cs

/-! ### Ordering engine: `sort_key` and the stable sort -/

/-- The sort key of an event, collapsed to one natural number: a concrete
date `(y, m, d)` becomes `y*10000 + m*100 + d` (the order of `datetime`
values on parser outputs, whose months and days are below 100), and an
unparsed date becomes a value larger than every concrete one — the model
of Python's `(0, parsed)` versus `(1, datetime.max)` pair. -/
def sortScore (e : Event) : Nat :=
  match parse_date e.date.toList with
  | some d => d.year * 10000 + d.month * 100 + d.day
  | none => 100000000

/-- Comparison used by the sort. -/
def evLE (a b : Event) : Prop := sortScore a ≤ sortScore b

instance : DecidableRel evLE := fun a b => Nat.decLe _ _

instance : IsTotal Event evLE := ⟨fun _ _ => Nat.le_total _ _⟩

instance : IsTrans Event evLE := ⟨fun _ _ _ h h' => Nat.le_trans h h'⟩

/-- `sorted(existing_events.values(), key=sort_key)`: Python's `sorted` is
a stable ascending sort, modelled by stable insertion sort with the same
key order. -/
def sortEvents (l : List Event) : List Event := l.insertionSort evLE

/-- True chronological order on calendar dates (year, then month, then
day). -/
def chronLE (a b : CalDate) : Prop :=
  a.year < b.year ∨ (a.year = b.year ∧ (a.month < b.month ∨
    (a.month = b.month ∧ a.day ≤ b.day)))

/-! ### Persistence loader: the row filter of lines 34-44 -/

/-- One spreadsheet row as `values_only=True` yields it: five cell values,
an empty cell being `None`. -/
structure XRow where
  title : Option String
  date : Option String
  location : Option String
  url : Option String
  source : Option String
deriving DecidableEq, Repr

/-- The load loop's row selection: `if row[0] is not None` keeps the row,
anything else is skipped (the `# Skip empty rows` guard). -/
def loadEvents (rows : List XRow) : List XRow :=
  rows.foldl (fun acc r => if r.title.isSome then acc ++ [r] else acc) []

/-! ### Lemmas about the merge loop -/

theorem eventKey_enrich (old new : Event) : eventKey (enrich old new).1 = eventKey old := rfl

theorem firstSome?_nil (f : α → Option β) : firstSome? f [] = none := rfl

theorem firstSome?_cons_some {f : α → Option β} {a : α} {b : β} (l : List α)
    (h : f a = some b) : firstSome? f (a :: l) = some b := by
  simp [firstSome?, h]

theorem firstSome?_cons_none {f : α → Option β} {a : α} (l : List α)
    (h : f a = none) : firstSome? f (a :: l) = firstSome? f l := by
  simp [firstSome?, h]

theorem firstSome?_eq_none {f : α → Option β} {l : List α}
    (h : ∀ a ∈ l, f a = none) : firstSome? f l = none := by
  induction l with
  | nil => rfl
  | cons a l ih =>
    rw [firstSome?_cons_none l (h a (List.mem_cons_self a l))]
    exact ih fun x hx => h x (List.mem_cons_of_mem a hx)

theorem lookupE_step1_ne {e : Event} {k : String × String × String}
    (store : List Event) (h : eventKey e ≠ k) :
    lookupE k (step1 e store).1 = lookupE k store := by
  induction store with
  | nil => simp [step1, lookupE, h]
  | cons x xs ih =>
    by_cases hx : eventKey x = eventKey e
    · have hk : eventKey x ≠ k := by rw [hx]; exact h
      simp [step1, hx, lookupE, eventKey_enrich, hk, h]
    · simp [step1, hx, lookupE]
      by_cases hxk : eventKey x = k
      · simp [hxk]
      · simp [hxk, ih]

theorem lookupE_step1_eq {e : Event} {k : String × String × String}
    (store : List Event) (h : eventKey e = k) :
    lookupE k (step1 e store).1 =
      (match lookupE k store with
       | none => some e
       | some r => some (enrich r e).1) := by
  induction store with
  | nil => simp [step1, lookupE, h]
  | cons x xs ih =>
    by_cases hx : eventKey x = eventKey e
    · have hxk : eventKey x = k := hx.trans h
      simp [step1, hx, lookupE, eventKey_enrich, hxk, h]
    · have hxk : eventKey x ≠ k := fun hc => hx (hc.trans h.symm)
      simp [step1, hx, lookupE, hxk, ih]

theorem lookupE_reconcile (I : List Event) (store : List Event)
    (k : String × String × String) :
    lookupE k (reconcile store I).1 =
      applyAll (lookupE k store) (I.filter fun e => decide (eventKey e = k)) := by
  induction I generalizing store with
  | nil =>
    show lookupE k store = applyAll (lookupE k store) []
    cases lookupE k store <;> rfl
  | cons e es ih =>
    show lookupE k (reconcile (step1 e store).1 es).1 = _
    rw [ih]
    by_cases he : eventKey e = k
    · rw [lookupE_step1_eq store he]
      simp only [List.filter_cons, decide_eq_true_eq, he, if_true]
      cases lookupE k store with
      | none => rfl
      | some r => rfl
    · rw [lookupE_step1_ne store he]
      simp [List.filter_cons, he]

theorem fillVal_nil (v : String) : fillVal v [] = v := by
  by_cases h : v = sentinel <;> simp [fillVal, firstConcrete, h]

theorem fillVal_cons (v d : String) (l : List String) :
    fillVal (if (v == sentinel && d != sentinel) then d else v) l =
      fillVal v (d :: l) := by
  by_cases hv : v = sentinel
  · by_cases hd : d = sentinel
    · simp [fillVal, firstConcrete, hv, hd]
    · simp [fillVal, firstConcrete, hv, hd]
  · simp [fillVal, hv]

theorem applyAll_some (r : Event) (es : List Event) :
    applyAll (some r) es =
      some { r with date := fillVal r.date (es.map Event.date),
                    location := fillVal r.location (es.map Event.location) } := by
  induction es generalizing r with
  | nil =>
    simp only [applyAll, List.map_nil, fillVal_nil]
  | cons e es ih =>
    show applyAll (some (enrich r e).1) es = _
    rw [ih]
    simp only [enrich, List.map_cons]
    rw [fillVal_cons r.date e.date, fillVal_cons r.location e.location]

theorem applyAll_none_cons (e : Event) (es : List Event) :
    applyAll none (e :: es) =
      some { e with date := fillVal e.date (es.map Event.date),
                    location := fillVal e.location (es.map Event.location) } := by
  show applyAll (some e) es = _
  exact applyAll_some e es

theorem firstConcrete_eq_none {l : List String}
    (h : ∀ x ∈ l, x = sentinel) : firstConcrete l = none := by
  induction l with
  | nil => rfl
  | cons d ds ih =>
    simp only [firstConcrete, h d (List.mem_cons_self d ds), if_true]
    exact ih fun x hx => h x (List.mem_cons_of_mem d hx)

theorem firstConcrete_spec {l : List String} {v : String}
    (h : firstConcrete l = some v) : v ∈ l ∧ v ≠ sentinel := by
  induction l with
  | nil => simp [firstConcrete] at h
  | cons d ds ih =>
    by_cases hd : d = sentinel
    · simp only [firstConcrete, hd, if_true] at h
      rcases ih h with ⟨hm, hv⟩
      exact ⟨List.mem_cons_of_mem d hm, hv⟩
    · simp only [firstConcrete, hd, if_false, Option.some.injEq] at h
      exact ⟨h ▸ List.mem_cons_self d ds, h ▸ hd⟩

theorem firstConcrete_ne_none {l : List String} {v : String}
    (hv : v ∈ l) (hs : v ≠ sentinel) : firstConcrete l ≠ none := by
  induction l with
  | nil => simp at hv
  | cons d ds ih =>
    rcases List.mem_cons.1 hv with h | h
    · subst h
      simp [firstConcrete, hs]
    · by_cases hd : d = sentinel
      · simpa [firstConcrete, hd] using ih h
      · simp [firstConcrete, hd]

theorem fillVal_of_ne {v : String} (l : List String) (h : v ≠ sentinel) :
    fillVal v l = v := by
  simp [fillVal, h]

theorem fillVal_sentinel_self {v : String} {l : List String}
    (h : fillVal v l = sentinel) : v = sentinel := by
  by_cases hv : v = sentinel
  · exact hv
  · rw [fillVal_of_ne l hv] at h
    exact absurd h hv

theorem fillVal_sentinel_mem {v x : String} {l : List String}
    (h : fillVal v l = sentinel) (hx : x ∈ l) : x = sentinel := by
  by_contra hxs
  have hne := firstConcrete_ne_none hx hxs
  have hv := fillVal_sentinel_self h
  rw [fillVal, if_pos hv] at h
  cases hfc : firstConcrete l with
  | none => exact hne hfc
  | some w =>
    rw [hfc] at h
    exact (firstConcrete_spec hfc).2 h

theorem enrich_noop {r e : Event} (h1 : r.date = sentinel → e.date = sentinel)
    (h2 : r.location = sentinel → e.location = sentinel) :
    enrich r e = (r, false) := by
  have hd : (r.date == sentinel && e.date != sentinel) = false := by
    by_cases h : r.date = sentinel
    · simp [h, h1 h]
    · simp [h]
  have hl : (r.location == sentinel && e.location != sentinel) = false := by
    by_cases h : r.location = sentinel
    · simp [h, h2 h]
    · simp [h]
  simp [enrich, hd, hl]

theorem step1_noop {e r : Event} {store : List Event}
    (hl : lookupE (eventKey e) store = some r) (hn : enrich r e = (r, false)) :
    step1 e store = (store, false, false) := by
  induction store with
  | nil => simp [lookupE] at hl
  | cons x xs ih =>
    by_cases hx : eventKey x = eventKey e
    · rw [lookupE, if_pos hx] at hl
      have hxr : x = r := by injection hl
      subst hxr
      simp [step1, hx, hn]
    · rw [lookupE, if_neg hx] at hl
      simp [step1, hx, ih hl]

theorem reconcile_noop {store : List Event} {I : List Event}
    (h : ∀ e ∈ I, ∃ r, lookupE (eventKey e) store = some r ∧ enrich r e = (r, false)) :
    reconcile store I = (store, 0, 0) := by
  induction I with
  | nil => rfl
  | cons e es ih =>
    rcases h e (List.mem_cons_self e es) with ⟨r, hl, hn⟩
    show (let s := step1 e store
          let t := reconcile s.1 es
          (t.1, (if s.2.1 then 1 else 0) + t.2.1, (if s.2.2 then 1 else 0) + t.2.2)) = _
    have hes := ih fun x hx => h x (List.mem_cons_of_mem e hx)
    rw [step1_noop hl hn]
    simp [hes]

theorem lookup_reconcile_saturated {P I : List Event} {e : Event} (he : e ∈ I) :
    ∃ r, lookupE (eventKey e) (reconcile P I).1 = some r ∧
      (r.date = sentinel → e.date = sentinel) ∧
      (r.location = sentinel → e.location = sentinel) := by
  rw [lookupE_reconcile]
  have hef : e ∈ I.filter fun x => decide (eventKey x = eventKey e) :=
    List.mem_filter.2 ⟨he, by simp⟩
  cases h0 : lookupE (eventKey e) P with
  | some r =>
    rw [applyAll_some]
    refine ⟨_, rfl, fun hd => ?_, fun hl => ?_⟩
    · exact fillVal_sentinel_mem hd (List.mem_map_of_mem Event.date hef)
    · exact fillVal_sentinel_mem hl (List.mem_map_of_mem Event.location hef)
  | none =>
    cases hfe : I.filter fun x => decide (eventKey x = eventKey e) with
    | nil => rw [hfe] at hef; simp at hef
    | cons e0 t =>
      rw [applyAll_none_cons]
      rw [hfe] at hef
      refine ⟨_, rfl, fun hd => ?_, fun hl => ?_⟩
      · rcases List.mem_cons.1 hef with h | h
        · exact h ▸ fillVal_sentinel_self hd
        · exact fillVal_sentinel_mem hd (List.mem_map_of_mem Event.date h)
      · rcases List.mem_cons.1 hef with h | h
        · exact h ▸ fillVal_sentinel_self hl
        · exact fillVal_sentinel_mem hl (List.mem_map_of_mem Event.location h)

theorem step1_length (e : Event) (store : List Event) :
    (step1 e store).1.length =
      store.length + (if (step1 e store).2.1 then 1 else 0) := by
  induction store with
  | nil => rfl
  | cons x xs ih =>
    by_cases hx : eventKey x = eventKey e
    · simp [step1, hx]
    · simp only [step1, if_neg hx, List.length_cons]
      omega

theorem reconcile_length (I : List Event) (store : List Event) :
    (reconcile store I).1.length = store.length + (reconcile store I).2.1 := by
  induction I generalizing store with
  | nil => rfl
  | cons e es ih =>
    show (reconcile (step1 e store).1 es).1.length = _
    rw [ih, step1_length e store]
    show _ = store.length +
      ((if (step1 e store).2.1 then 1 else 0) + (reconcile (step1 e store).1 es).2.1)
    omega

theorem step1_keys_mem {e : Event} {store : List Event} {k : String × String × String}
    (h : k ∈ (step1 e store).1.map eventKey) :
    k ∈ store.map eventKey ∨ k = eventKey e := by
  induction store with
  | nil =>
    simp only [step1, List.map_cons, List.map_nil, List.mem_singleton] at h
    exact Or.inr h
  | cons x xs ih =>
    by_cases hx : eventKey x = eventKey e
    · simp only [step1, if_pos hx, List.map_cons, List.mem_cons, eventKey_enrich] at h
      rcases h with h | h
      · exact Or.inl (List.mem_cons.2 (Or.inl h))
      · exact Or.inl (List.mem_cons.2 (Or.inr h))
    · simp only [step1, if_neg hx, List.map_cons, List.mem_cons] at h
      rcases h with h | h
      · exact Or.inl (List.mem_cons.2 (Or.inl h))
      · rcases ih h with h' | h'
        · exact Or.inl (List.mem_cons.2 (Or.inr h'))
        · exact Or.inr h'

theorem step1_keys_nodup {e : Event} {store : List Event}
    (h : (store.map eventKey).Nodup) :
    ((step1 e store).1.map eventKey).Nodup := by
  induction store with
  | nil => simp [step1]
  | cons x xs ih =>
    rw [List.map_cons, List.nodup_cons] at h
    by_cases hx : eventKey x = eventKey e
    · simpa [step1, hx, eventKey_enrich, List.nodup_cons] using h
    · simp only [step1, if_neg hx, List.map_cons, List.nodup_cons]
      refine ⟨fun hc => ?_, ih h.2⟩
      rcases step1_keys_mem hc with h' | h'
      · exact h.1 h'
      · exact hx h'

theorem reconcile_keys_nodup (I : List Event) {store : List Event}
    (h : (store.map eventKey).Nodup) :
    (((reconcile store I).1).map eventKey).Nodup := by
  induction I generalizing store with
  | nil => exact h
  | cons e es ih =>
    show ((reconcile (step1 e store).1 es).1.map eventKey).Nodup
    exact ih (step1_keys_nodup h)

theorem getD_firstConcrete_perm {l l' : List String} (hp : l.Perm l')
    (hagree : ∀ a ∈ l, ∀ b ∈ l, a ≠ sentinel → b ≠ sentinel → a = b) :
    (firstConcrete l).getD sentinel = (firstConcrete l').getD sentinel := by
  cases hfc : firstConcrete l with
  | none =>
    have hall : ∀ x ∈ l, x = sentinel := by
      intro x hx
      by_contra hxs
      exact (firstConcrete_ne_none hx hxs) hfc
    have hall' : ∀ x ∈ l', x = sentinel := fun x hx => hall x (hp.mem_iff.2 hx)
    rw [firstConcrete_eq_none hall']
  | some v =>
    rcases firstConcrete_spec hfc with ⟨hv, hvs⟩
    cases hfc' : firstConcrete l' with
    | none => exact absurd hfc' (firstConcrete_ne_none (hp.mem_iff.1 hv) hvs)
    | some w =>
      rcases firstConcrete_spec hfc' with ⟨hw, hws⟩
      simpa using hagree v hv w (hp.mem_iff.2 hw) hvs hws

theorem fillVal_perm {l l' : List String} (v : String) (hp : l.Perm l')
    (hagree : ∀ a ∈ l, ∀ b ∈ l, a ≠ sentinel → b ≠ sentinel → a = b) :
    fillVal v l = fillVal v l' := by
  by_cases hv : v = sentinel
  · rw [fillVal, fillVal, if_pos hv, if_pos hv, getD_firstConcrete_perm hp hagree]
  · rw [fillVal_of_ne l hv, fillVal_of_ne l' hv]

theorem fillVal_eq_firstConcrete (v : String) (l : List String) :
    fillVal v l = (firstConcrete (v :: l)).getD sentinel := by
  by_cases hv : v = sentinel
  · simp [fillVal, firstConcrete, hv]
  · simp [fillVal, firstConcrete, hv]

theorem event_update_eq {a b : Event} (ht : a.title = b.title) (hu : a.url = b.url)
    (hs : a.source = b.source) (X Y : String) :
    ({ a with date := X, location := Y } : Event) =
      { b with date := X, location := Y } := by
  cases a; cases b
  simp_all

/-- Two incoming records with the same identity key never disagree on a
concrete (non-sentinel) value of the same field. -/
def compatible (I : List Event) : Prop :=
  ∀ e ∈ I, ∀ f ∈ I, eventKey e = eventKey f →
    (e.date ≠ sentinel → f.date ≠ sentinel → e.date = f.date) ∧
    (e.location ≠ sentinel → f.location ≠ sentinel → e.location = f.location)

theorem reconcile_lookup_perm (P I I' : List Event) (hI : I.Perm I')
    (hc : compatible I) (k : String × String × String) :
    lookupE k (reconcile P I).1 = lookupE k (reconcile P I').1 := by
  rw [lookupE_reconcile, lookupE_reconcile]
  have hpf : (I.filter fun e => decide (eventKey e = k)).Perm
      (I'.filter fun e => decide (eventKey e = k)) := hI.filter _
  have hkey : ∀ e ∈ I.filter (fun e => decide (eventKey e = k)), eventKey e = k := by
    intro e he
    simpa using (List.mem_filter.1 he).2
  have hkey' : ∀ e ∈ I'.filter (fun e => decide (eventKey e = k)), eventKey e = k := by
    intro e he
    simpa using (List.mem_filter.1 he).2
  have hmem : ∀ e ∈ I.filter (fun e => decide (eventKey e = k)), e ∈ I :=
    fun e he => (List.mem_filter.1 he).1
  have hdate : ∀ a ∈ (I.filter fun e => decide (eventKey e = k)).map Event.date,
      ∀ b ∈ (I.filter fun e => decide (eventKey e = k)).map Event.date,
      a ≠ sentinel → b ≠ sentinel → a = b := by
    intro a ha b hb has hbs
    rcases List.mem_map.1 ha with ⟨ea, hea, rfl⟩
    rcases List.mem_map.1 hb with ⟨eb, heb, rfl⟩
    exact (hc ea (hmem ea hea) eb (hmem eb heb)
      ((hkey ea hea).trans (hkey eb heb).symm)).1 has hbs
  have hloc : ∀ a ∈ (I.filter fun e => decide (eventKey e = k)).map Event.location,
      ∀ b ∈ (I.filter fun e => decide (eventKey e = k)).map Event.location,
      a ≠ sentinel → b ≠ sentinel → a = b := by
    intro a ha b hb has hbs
    rcases List.mem_map.1 ha with ⟨ea, hea, rfl⟩
    rcases List.mem_map.1 hb with ⟨eb, heb, rfl⟩
    exact (hc ea (hmem ea hea) eb (hmem eb heb)
      ((hkey ea hea).trans (hkey eb heb).symm)).2 has hbs
  cases h0 : lookupE k P with
  | some r =>
    rw [applyAll_some, applyAll_some]
    rw [fillVal_perm r.date (hpf.map Event.date) hdate,
        fillVal_perm r.location (hpf.map Event.location) hloc]
  | none =>
    cases hfe : I.filter fun e => decide (eventKey e = k) with
    | nil =>
      have h' : I'.filter (fun e => decide (eventKey e = k)) = [] := by
        rw [hfe] at hpf
        exact hpf.symm.eq_nil
      rw [h']
    | cons e0 t =>
      cases hfe' : I'.filter fun e => decide (eventKey e = k) with
      | nil =>
        rw [hfe, hfe'] at hpf
        exact absurd hpf.eq_nil (List.cons_ne_nil e0 t)
      | cons e0' t' =>
        rw [hfe, hfe'] at hpf
        have h0m : eventKey e0 = k := by
          refine hkey e0 ?_
          rw [hfe]
          exact List.mem_cons_self e0 t
        have h0m' : eventKey e0' = k := by
          refine hkey' e0' ?_
          rw [hfe']
          exact List.mem_cons_self e0' t'
        have hkk : eventKey e0 = eventKey e0' := h0m.trans h0m'.symm
        rw [applyAll_none_cons, applyAll_none_cons]
        rw [hfe] at hdate hloc
        have hda : fillVal e0.date (t.map Event.date)
            = fillVal e0'.date (t'.map Event.date) := by
          rw [fillVal_eq_firstConcrete, fillVal_eq_firstConcrete]
          exact getD_firstConcrete_perm (hpf.map Event.date) hdate
        have hlo : fillVal e0.location (t.map Event.location)
            = fillVal e0'.location (t'.map Event.location) := by
          rw [fillVal_eq_firstConcrete, fillVal_eq_firstConcrete]
          exact getD_firstConcrete_perm (hpf.map Event.location) hloc
        rw [hda, hlo]
        exact congrArg some (event_update_eq (congrArg Prod.fst hkk)
          (congrArg (fun p => p.2.1) hkk) (congrArg (fun p => p.2.2) hkk) _ _)

/-! ### Lemmas about the date normalizer -/

theorem space_char_cases {c : Char} (hs : isSpaceChar c = true) :
    c = ' ' ∨ c = '\t' ∨ c = '\n' ∨ c = '\r' ∨ c = '\x0b' ∨ c = '\x0c' := by
  simpa [isSpaceChar, or_assoc] using hs

theorem not_space_of_digit {c : Char} (h : isDigitChar c = true) :
    isSpaceChar c = false := by
  by_contra hs
  rw [Bool.not_eq_false] at hs
  rcases space_char_cases hs with h1 | h1 | h1 | h1 | h1 | h1 <;> subst h1 <;>
    exact absurd h (by decide)

theorem not_space_of_word {c : Char} (h : isWordChar c = true) :
    isSpaceChar c = false := by
  by_contra hs
  rw [Bool.not_eq_false] at hs
  rcases space_char_cases hs with h1 | h1 | h1 | h1 | h1 | h1 <;> subst h1 <;>
    exact absurd h (by decide)

theorem digit_ne {c c' : Char} (h : isDigitChar c = true)
    (h' : isDigitChar c' = false) : ¬(c = c') := by
  intro he
  subst he
  rw [h] at h'
  cases h'

theorem take2or1_suffix {cs : List Char} {p : List Char × List Char}
    (hp : p ∈ take2or1 cs) : p.2 <:+ cs := by
  match cs with
  | [] => exact absurd hp (List.not_mem_nil p)
  | [c1] =>
    rw [take2or1] at hp
    by_cases h : isDigitChar c1
    · rw [if_pos h] at hp
      rcases List.mem_singleton.1 hp with rfl
      exact List.nil_suffix
    · rw [if_neg h] at hp
      exact absurd hp (List.not_mem_nil p)
  | c1 :: c2 :: rest =>
    rw [take2or1] at hp
    by_cases h1 : isDigitChar c1
    · rw [if_pos h1] at hp
      by_cases h2 : isDigitChar c2
      · rw [if_pos h2] at hp
        rcases List.mem_cons.1 hp with rfl | hp
        · exact (List.suffix_cons c2 rest).trans (List.suffix_cons c1 _)
        · rcases List.mem_singleton.1 hp with rfl
          exact List.suffix_cons c1 _
      · rw [if_neg h2] at hp
        rcases List.mem_singleton.1 hp with rfl
        exact List.suffix_cons c1 _
    · rw [if_neg h1] at hp
      exact absurd hp (List.not_mem_nil p)

theorem optChar_suffix {ch : Char} {cs r : List Char}
    (hr : r ∈ optChar ch cs) : r <:+ cs := by
  match cs with
  | [] =>
    rw [optChar] at hr
    rcases List.mem_singleton.1 hr with rfl
    exact List.suffix_rfl
  | c :: rest =>
    rw [optChar] at hr
    by_cases h : c = ch
    · rw [if_pos h] at hr
      rcases List.mem_cons.1 hr with rfl | hr
      · exact List.suffix_cons c _
      · rcases List.mem_singleton.1 hr with rfl
        exact List.suffix_rfl
    · rw [if_neg h] at hr
      rcases List.mem_singleton.1 hr with rfl
      exact List.suffix_rfl

theorem spacesSplits_suffix {cs : List Char} {r : List Char}
    (hr : r ∈ spacesSplits cs) : r <:+ cs := by
  induction cs with
  | nil =>
    rw [spacesSplits] at hr
    rcases List.mem_singleton.1 hr with rfl
    exact List.suffix_rfl
  | cons c rest ih =>
    rw [spacesSplits] at hr
    by_cases h : isSpaceChar c
    · rw [if_pos h] at hr
      rcases List.mem_append.1 hr with hr | hr
      · exact (ih hr).trans (List.suffix_cons c rest)
      · rcases List.mem_singleton.1 hr with rfl
        exact List.suffix_rfl
    · rw [if_neg h] at hr
      rcases List.mem_singleton.1 hr with rfl
      exact List.suffix_rfl

theorem optDigits12_suffix {cs : List Char} {p : Option (List Char) × List Char}
    (hp : p ∈ optDigits12 cs) : p.2 <:+ cs := by
  rw [optDigits12] at hp
  rcases List.mem_append.1 hp with hp | hp
  · rcases List.mem_map.1 hp with ⟨q, hq, rfl⟩
    exact take2or1_suffix hq
  · rcases List.mem_singleton.1 hp with rfl
    exact List.suffix_rfl

theorem wordTakes_suffix {cs : List Char} {p : List Char × List Char}
    (hp : p ∈ wordTakes cs) : p.2 <:+ cs := by
  induction cs generalizing p with
  | nil => exact absurd hp (List.not_mem_nil p)
  | cons c rest ih =>
    rw [wordTakes] at hp
    by_cases h : isWordChar c
    · rw [if_pos h] at hp
      rcases List.mem_append.1 hp with hp | hp
      · rcases List.mem_map.1 hp with ⟨q, hq, rfl⟩
        exact (ih hq).trans (List.suffix_cons c rest)
      · rcases List.mem_singleton.1 hp with rfl
        exact List.suffix_cons c rest
    · rw [if_neg h] at hp
      exact absurd hp (List.not_mem_nil p)

theorem matchP2_none_of_no_space {cs : List Char}
    (h : ∀ c ∈ cs, isSpaceChar c = false) : matchP2 cs = none := by
  unfold matchP2
  apply firstSome?_eq_none
  intro g1 hg1
  apply firstSome?_eq_none
  intro r2 hr2
  apply firstSome?_eq_none
  intro r3 hr3
  apply firstSome?_eq_none
  intro r4 hr4
  apply firstSome?_eq_none
  intro r5 hr5
  apply firstSome?_eq_none
  intro g2 hg2
  apply firstSome?_eq_none
  intro r7 hr7
  apply firstSome?_eq_none
  intro r8 hr8
  apply firstSome?_eq_none
  intro g3 hg3
  have hsfx : g3.2 <:+ cs :=
    ((((((((wordTakes_suffix hg3).trans (spacesSplits_suffix hr8)).trans
      (optChar_suffix hr7)).trans (optDigits12_suffix hg2)).trans
      (spacesSplits_suffix hr5)).trans (optChar_suffix hr4)).trans
      (optChar_suffix hr3)).trans (optChar_suffix hr2)).trans
      (take2or1_suffix hg1)
  cases hg32 : g3.2 with
  | nil => rfl
  | cons c rest =>
    have hc : c ∈ cs := hsfx.subset (by rw [hg32]; exact List.mem_cons_self c rest)
    simp [spacesPlus, h c hc, firstSome?_nil]

theorem matchP1_ddmmyyyy (d1 d2 m1 m2 y1 y2 y3 y4 : Char) (tail : List Char)
    (hd1 : isDigitChar d1 = true) (hd2 : isDigitChar d2 = true)
    (hm1 : isDigitChar m1 = true) (hm2 : isDigitChar m2 = true)
    (hy1 : isDigitChar y1 = true) (hy2 : isDigitChar y2 = true)
    (hy3 : isDigitChar y3 = true) (hy4 : isDigitChar y4 = true) :
    matchP1 ([d1, d2, '.', m1, m2, '.', y1, y2, y3, y4] ++ tail)
      = some (listToNat [d1, d2], listToNat [m1, m2], listToNat [y1, y2, y3, y4]) := by
  simp [matchP1, take2or1, hd1, hd2, hm1, hm2, hy1, hy2, hy3, hy4, digits4,
    firstSome?, headDot]

theorem isWordChar_of_lower {c : Char} (h : isWordChar (lowerChar c) = true) :
    isWordChar c = true := by
  unfold lowerChar at h
  by_cases h1 : ('A' ≤ c && c ≤ 'Z') = true
  · simp [isWordChar, h1]
  · by_cases h2 : c = 'Ä'
    · subst h2; decide
    · by_cases h3 : c = 'Ö'
      · subst h3; decide
      · by_cases h4 : c = 'Ü'
        · subst h4; decide
        · rw [if_neg h1, if_neg h2, if_neg h3, if_neg h4] at h
          exact h

theorem month_name_facts {name : List Char} {m : Nat}
    (h : monthMap (String.mk (name.map lowerChar)) = some m) :
    name ≠ [] ∧ ∀ c ∈ name, isWordChar c = true := by
  unfold monthMap at h
  rcases Option.map_eq_some'.1 h with ⟨q, hq, _⟩
  have hqmem : q ∈ monthEntries := List.mem_of_find?_eq_some hq
  have hq1 : q.1 = String.mk (name.map lowerChar) := by
    simpa using List.find?_some hq
  have hdata : q.1.data = name.map lowerChar := by rw [hq1]
  have hall : ∀ p ∈ monthEntries, p.1.data.all isWordChar = true := by decide
  have hnonnil : ∀ p ∈ monthEntries, p.1.data ≠ [] := by decide
  constructor
  · intro hn
    rw [hn] at hdata
    exact hnonnil q hqmem (by simpa using hdata)
  · intro c hc
    have hlc : lowerChar c ∈ q.1.data := by
      rw [hdata]
      exact List.mem_map_of_mem lowerChar hc
    have hw : isWordChar (lowerChar c) = true := by
      have hx := hall q hqmem
      rw [List.all_eq_true] at hx
      exact hx _ hlc
    exact isWordChar_of_lower hw

theorem wordTakes_first {w : List Char} (hw : ∀ c ∈ w, isWordChar c = true)
    (hne : w ≠ []) {s : Char} (hs : isWordChar s = false) (rest : List Char) :
    ∃ l', wordTakes (w ++ s :: rest) = (w, s :: rest) :: l' := by
  induction w with
  | nil => exact absurd rfl hne
  | cons c w' ih =>
    have hc : isWordChar c = true := hw c (List.mem_cons_self c w')
    cases w' with
    | nil =>
      refine ⟨[], ?_⟩
      show wordTakes (c :: s :: rest) = _
      rw [wordTakes, if_pos hc, wordTakes, if_neg (by simp [hs])]
      simp
    | cons c2 w'' =>
      rcases ih (fun x hx => hw x (List.mem_cons_of_mem c hx))
        (List.cons_ne_nil c2 w'') with ⟨l', hl'⟩
      refine ⟨(l'.map fun p => (c :: p.1, p.2)) ++ [([c], (c2 :: w'') ++ s :: rest)], ?_⟩
      show wordTakes (c :: ((c2 :: w'') ++ s :: rest)) = _
      rw [wordTakes, if_pos hc, hl']
      simp

/-! ### Lemmas about the ordering engine -/

theorem validDate_bounds {y m d : Nat} (h : validDate y m d = true) :
    1 ≤ y ∧ y ≤ 9999 ∧ 1 ≤ m ∧ m ≤ 12 ∧ 1 ≤ d ∧ d ≤ 31 := by
  have hdm : daysInMonth y m ≤ 31 := by
    unfold daysInMonth
    split_ifs <;> omega
  simp only [validDate, Bool.and_eq_true, decide_eq_true_eq] at h
  omega

theorem parseP1_valid {cs : List Char} {d : CalDate} (h : parseP1 cs = some d) :
    validDate d.year d.month d.day = true := by
  unfold parseP1 at h
  split at h
  · split_ifs at h with hv
    injection h with h'
    subst h'
    simpa using hv
  · simp at h

theorem parseP2_valid {cs : List Char} {d : CalDate} (h : parseP2 cs = some d) :
    validDate d.year d.month d.day = true := by
  unfold parseP2 at h
  split at h
  · split at h
    · split_ifs at h with hv
      injection h with h'
      subst h'
      simpa using hv
    · simp at h
  · simp at h

theorem parse_date_valid {cs : List Char} {d : CalDate}
    (h : parse_date cs = some d) : validDate d.year d.month d.day = true := by
  unfold parse_date at h
  split at h
  · simp at h
  · split at h
    · rename_i dt heq
      injection h with h'
      subst h'
      exact parseP1_valid heq
    · exact parseP2_valid h

theorem sortScore_le (e : Event) : sortScore e ≤ 100000000 := by
  unfold sortScore
  cases hp : parse_date e.date.toList with
  | none => exact Nat.le_refl _
  | some d =>
    rcases validDate_bounds (parse_date_valid hp) with ⟨_, hy, _, hm, _, hd⟩
    show d.year * 10000 + d.month * 100 + d.day ≤ 100000000
    omega

theorem sortScore_eq_max {e : Event} :
    sortScore e = 100000000 ↔ parse_date e.date.toList = none := by
  unfold sortScore
  cases hp : parse_date e.date.toList with
  | none => simp
  | some d =>
    rcases validDate_bounds (parse_date_valid hp) with ⟨_, hy, _, hm, _, hd⟩
    show d.year * 10000 + d.month * 100 + d.day = 100000000 ↔ some d = none
    constructor
    · intro h
      omega
    · intro h
      exact absurd h (by simp)

theorem chronLE_iff_score {a b : CalDate}
    (hma : a.month ≤ 12) (hda : a.day ≤ 31) (hmb : b.month ≤ 12) (hdb : b.day ≤ 31) :
    (a.year * 10000 + a.month * 100 + a.day ≤ b.year * 10000 + b.month * 100 + b.day)
      ↔ chronLE a b := by
  unfold chronLE
  omega

/-- The record-level test used to state stability: the record's date does
not resolve to a concrete calendar date. -/
def unknownDate (e : Event) : Bool := (parse_date e.date.toList).isNone

theorem unknownDate_iff_max {e : Event} :
    unknownDate e = true ↔ sortScore e = 100000000 := by
  rw [sortScore_eq_max]
  unfold unknownDate
  cases parse_date e.date.toList <;> simp

theorem filter_orderedInsert_not {a : Event} (L : List Event)
    (hpa : unknownDate a = false) :
    (L.orderedInsert evLE a).filter unknownDate = L.filter unknownDate := by
  induction L with
  | nil => simp [List.orderedInsert, List.filter_cons, hpa]
  | cons b L' ih =>
    by_cases h : evLE a b
    · rw [List.orderedInsert, if_pos h]
      simp [List.filter_cons, hpa]
    · rw [List.orderedInsert, if_neg h]
      simp [List.filter_cons, ih]

theorem filter_orderedInsert_max {a : Event} (L : List Event)
    (hpa : unknownDate a = true) :
    (L.orderedInsert evLE a).filter unknownDate = a :: L.filter unknownDate := by
  induction L with
  | nil => simp [List.orderedInsert, List.filter_cons, hpa]
  | cons b L' ih =>
    by_cases h : evLE a b
    · rw [List.orderedInsert, if_pos h]
      simp [List.filter_cons, hpa]
    · have hpb : unknownDate b = false := by
        cases hcb : unknownDate b
        · rfl
        · exfalso
          apply h
          show sortScore a ≤ sortScore b
          rw [unknownDate_iff_max.1 hpa, unknownDate_iff_max.1 hcb]
      rw [List.orderedInsert, if_neg h]
      rw [List.filter_cons_of_neg (by simp [hpb]), ih,
        List.filter_cons_of_neg (by simp [hpb])]

theorem filter_insertionSort_unknown (l : List Event) :
    (l.insertionSort evLE).filter unknownDate = l.filter unknownDate := by
  induction l with
  | nil => rfl
  | cons a l' ih =>
    rw [List.insertionSort]
    cases hpa : unknownDate a
    · rw [filter_orderedInsert_not _ hpa, ih,
        List.filter_cons_of_neg (by simp [hpa])]
    · rw [filter_orderedInsert_max _ hpa, ih,
        List.filter_cons_of_pos (by simp [hpa])]

/-! ### Lemmas about the loader -/

theorem loadEvents_eq_filter (rows : List XRow) :
    loadEvents rows = rows.filter fun r => r.title.isSome := by
  unfold loadEvents
  suffices h : ∀ acc : List XRow,
      rows.foldl (fun acc r => if r.title.isSome then acc ++ [r] else acc) acc =
        acc ++ rows.filter (fun r => r.title.isSome) by
    simpa using h []
  induction rows with
  | nil => intro acc; simp
  | cons r rows ih =>
    intro acc
    by_cases h : r.title.isSome
    · simp [List.foldl_cons, h, ih, List.filter_cons]
    · simp [List.foldl_cons, h, ih, List.filter_cons]

/-! ### Concrete records used by counterexamples and witnesses -/

/-- Two incoming observations with the same identity key `("K", "u", "s")`
but different concrete dates. -/
def evA : Event := Event.mk "K" "01.03.2026" "See details" "u" "s"

/-- Same key as `evA`, different concrete date. -/
def evB : Event := Event.mk "K" "02.03.2026" "See details" "u" "s"

/-- A record with a different identity key and an unknown date. -/
def evC : Event := Event.mk "E" "See details" "Berlin" "v" "t"

/-- A spreadsheet row whose title cell is absent. -/
def rowNoTitle : XRow := XRow.mk none (some "d") (some "l") (some "u") (some "s")

/-- A spreadsheet row whose title cell holds the empty string. -/
def rowEmptyTitle : XRow := XRow.mk (some "") (some "d") (some "l") (some "u") (some "s")

/-! ### The claims -/

/-- C1, counterexample: the merge loop is not commutative over the order of
incoming records when two incoming records share an identity key and carry
different concrete dates — starting from an empty store, `[evA, evB]` and
its permutation `[evB, evA]` leave different dates under the shared key. -/
theorem reconcile_comm_counterexample :
    [evA, evB].Perm [evB, evA] ∧
      lookupE ("K", "u", "s") (reconcile [] [evA, evB]).1 ≠
        lookupE ("K", "u", "s") (reconcile [] [evB, evA]).1 :=
  ⟨List.Perm.swap evB evA [], by decide⟩

/-- C1 (amended): for every persisted set `P` and incoming sequence `I` in
which no two records sharing an identity key carry different non-sentinel
values for the same field, reconciling `P` with any permutation of `I`
yields the same final persisted mapping (the same record under every
identity key). -/
theorem reconcile_comm_of_compatible (P I I' : List Event) (hI : I.Perm I')
    (hc : compatible I) (k : String × String × String) :
    lookupE k (reconcile P I).1 = lookupE k (reconcile P I').1 :=
  reconcile_lookup_perm P I I' hI hc k

/-- C1, witness for the amended theorem at a concrete batch of two records
with distinct keys. -/
theorem reconcile_comm_of_compatible_witness :
    lookupE ("K", "u", "s") (reconcile [] [evA, evC]).1 =
      lookupE ("K", "u", "s") (reconcile [] [evC, evA]).1 :=
  reconcile_comm_of_compatible [] [evA, evC] [evC, evA]
    (List.Perm.swap evC evA []) (by unfold compatible; decide) ("K", "u", "s")

/-- C2, counterexample: a row whose first cell is the empty string is NOT
skipped by the loader (the code only tests `row[0] is not None`), while a
row whose first cell is absent is skipped. -/
theorem loadEvents_empty_title_loaded :
    loadEvents [rowEmptyTitle] = [rowEmptyTitle] ∧ loadEvents [rowNoTitle] = [] :=
  ⟨rfl, rfl⟩

/-- C2 (amended): when loading the persisted store, exactly the rows whose
title cell is absent (`None`) are skipped; a row whose title cell is
present — including one holding the empty string — is loaded. -/
theorem loadEvents_mem_iff (rows : List XRow) (r : XRow) :
    r ∈ loadEvents rows ↔ r ∈ rows ∧ r.title ≠ none := by
  rw [loadEvents_eq_filter, List.mem_filter, Option.isSome_iff_ne_none]

/-- C2, witness: the amended characterization applied to a singleton list
holding the empty-string-titled row. -/
theorem loadEvents_mem_iff_witness :
    rowEmptyTitle ∈ loadEvents [rowEmptyTitle] :=
  (loadEvents_mem_iff [rowEmptyTitle] rowEmptyTitle).2
    ⟨List.mem_singleton.2 rfl, by decide⟩

/-- C3: reconciliation is idempotent — merging the same incoming batch a
second time into the output of the first merge returns the store unchanged
with `new_count = 0` and `updated_count = 0`. -/
theorem reconcile_idempotent (P I : List Event) :
    reconcile (reconcile P I).1 I = ((reconcile P I).1, 0, 0) :=
  reconcile_noop fun _ he =>
    let ⟨r, hr, h1, h2⟩ := lookup_reconcile_saturated (P := P) he
    ⟨r, hr, enrich_noop h1 h2⟩

/-- C4: monotonic enrichment — once the stored record under a key holds a
non-sentinel `date` (resp. `location`), no later merge with any incoming
batch changes that field: it keeps its exact value, in particular it never
reverts to the sentinel and is never overwritten by a different concrete
incoming value. -/
theorem reconcile_monotone (store I : List Event)
    (k : String × String × String) (r : Event) (h : lookupE k store = some r) :
    ∃ r', lookupE k (reconcile store I).1 = some r' ∧
      (r.date ≠ sentinel → r'.date = r.date) ∧
      (r.location ≠ sentinel → r'.location = r.location) := by
  rw [lookupE_reconcile, h, applyAll_some]
  refine ⟨_, rfl, fun hd => ?_, fun hl => ?_⟩
  · exact fillVal_of_ne _ hd
  · exact fillVal_of_ne _ hl

/-- C4, witness: a stored concrete date survives a merge with an incoming
record carrying a different concrete date. -/
theorem reconcile_monotone_witness :
    ∃ r', lookupE ("K", "u", "s") (reconcile [evA] [evB]).1 = some r' ∧
      (evA.date ≠ sentinel → r'.date = evA.date) ∧
      (evA.location ≠ sentinel → r'.location = evA.location) :=
  reconcile_monotone [evA] [evB] ("K", "u", "s") evA (by decide)

/-- C9: size invariant of the merge — for a persisted store with unique
identity keys, the merged store's size is the persisted size plus the
reported `new_count`, every persisted key still resolves to a record after
the merge, and the merged store again has pairwise distinct identity
keys. -/
theorem reconcile_size_invariant (P I : List Event)
    (h : (P.map eventKey).Nodup) :
    (reconcile P I).1.length = P.length + (reconcile P I).2.1 ∧
      (∀ k r, lookupE k P = some r → ∃ r', lookupE k (reconcile P I).1 = some r') ∧
      ((reconcile P I).1.map eventKey).Nodup := by
  refine ⟨reconcile_length I P, ?_, reconcile_keys_nodup I h⟩
  intro k r hr
  rw [lookupE_reconcile, hr, applyAll_some]
  exact ⟨_, rfl⟩

/-- C9, witness: the size invariant at a one-record store merged with a
two-record batch. -/
theorem reconcile_size_invariant_witness :
    (reconcile [evA] [evB, evC]).1.length = [evA].length + (reconcile [evA] [evB, evC]).2.1 ∧
      (∀ k r, lookupE k [evA] = some r →
        ∃ r', lookupE k (reconcile [evA] [evB, evC]).1 = some r') ∧
      ((reconcile [evA] [evB, evC]).1.map eventKey).Nodup :=
  reconcile_size_invariant [evA] [evB, evC] (by decide)

/-- C5: for a string of the exact form `DD.MM.YYYY`, the date normalizer
returns the encoded calendar date, day first, exactly when that
day/month/year combination is a valid calendar date, and `Unknown`
(`none`) otherwise — e.g. `31.02.2026` is rejected. -/
theorem parse_date_ddmmyyyy (d1 d2 m1 m2 y1 y2 y3 y4 : Char)
    (hd1 : isDigitChar d1 = true) (hd2 : isDigitChar d2 = true)
    (hm1 : isDigitChar m1 = true) (hm2 : isDigitChar m2 = true)
    (hy1 : isDigitChar y1 = true) (hy2 : isDigitChar y2 = true)
    (hy3 : isDigitChar y3 = true) (hy4 : isDigitChar y4 = true) :
    parse_date [d1, d2, '.', m1, m2, '.', y1, y2, y3, y4] =
      (if validDate (listToNat [y1, y2, y3, y4]) (listToNat [m1, m2]) (listToNat [d1, d2])
       then some (CalDate.mk (listToNat [y1, y2, y3, y4]) (listToNat [m1, m2])
         (listToNat [d1, d2]))
       else none) := by
  have hguard : ¬([d1, d2, '.', m1, m2, '.', y1, y2, y3, y4] = ([] : List Char)
      ∨ [d1, d2, '.', m1, m2, '.', y1, y2, y3, y4] = sentinel.toList) := by
    rintro (h | h)
    · exact List.cons_ne_nil d1 _ h
    · rw [show sentinel.toList = ['S', 'e', 'e', ' ', 'd', 'e', 't', 'a', 'i', 'l', 's']
        from rfl] at h
      simp at h
  have hp1 := matchP1_ddmmyyyy d1 d2 m1 m2 y1 y2 y3 y4 []
    hd1 hd2 hm1 hm2 hy1 hy2 hy3 hy4
  rw [List.append_nil] at hp1
  have hns : ∀ c ∈ [d1, d2, '.', m1, m2, '.', y1, y2, y3, y4], isSpaceChar c = false := by
    intro c hc
    simp only [List.mem_cons, List.not_mem_nil, or_false] at hc
    rcases hc with rfl | rfl | rfl | rfl | rfl | rfl | rfl | rfl | rfl | rfl
    exacts [not_space_of_digit hd1, not_space_of_digit hd2, by decide,
      not_space_of_digit hm1, not_space_of_digit hm2, by decide,
      not_space_of_digit hy1, not_space_of_digit hy2, not_space_of_digit hy3,
      not_space_of_digit hy4]
  unfold parse_date parseP1 parseP2
  rw [if_neg hguard, hp1]
  by_cases hv : validDate (listToNat [y1, y2, y3, y4]) (listToNat [m1, m2])
      (listToNat [d1, d2]) = true
  · simp [hv]
  · simp only [Bool.not_eq_true] at hv
    simp [hv, matchP2_none_of_no_space hns]

/-- C5, witness: `10.03.2026` parses to 10 March 2026 and `31.02.2026`
(an invalid day/month combination) parses to `Unknown`. -/
theorem parse_date_ddmmyyyy_witness :
    parse_date "10.03.2026".toList = some (CalDate.mk 2026 3 10) ∧
      parse_date "31.02.2026".toList = none := by
  constructor
  · have h := parse_date_ddmmyyyy '1' '0' '0' '3' '2' '0' '2' '6'
      (by decide) (by decide) (by decide) (by decide)
      (by decide) (by decide) (by decide) (by decide)
    exact h.trans (by decide)
  · have h := parse_date_ddmmyyyy '3' '1' '0' '2' '2' '0' '2' '6'
      (by decide) (by decide) (by decide) (by decide)
      (by decide) (by decide) (by decide) (by decide)
    exact h.trans (by decide)

/-- C6: the date normalizer is total by construction (the `ValueError` of
an invalid `datetime` is modelled as falling through, never escaping);
the sentinel, the empty string and unrecognized text all return `Unknown`,
and whenever neither regular expression matches the result is `Unknown`. -/
theorem parse_date_total_unknown :
    parse_date sentinel.toList = none ∧ parse_date [] = none ∧
      parse_date "gibberish".toList = none ∧
      ∀ cs : List Char, matchP1 cs = none → matchP2 cs = none →
        parse_date cs = none := by
  refine ⟨by decide, rfl, by decide, ?_⟩
  intro cs h1 h2
  unfold parse_date parseP1 parseP2
  rw [h1, h2]
  split <;> rfl

/-- C6, witness: the no-match clause applied to a concrete unmatched
string. -/
theorem parse_date_total_unknown_witness : parse_date "???".toList = none :=
  parse_date_total_unknown.2.2.2 "???".toList (by decide) (by decide)

/-- C7: the ordering engine returns a permutation of its input in which a
record with an unknown date is never followed by a concrete-date record,
concrete-date records appear in ascending chronological order, and the
unknown-date records keep exactly their relative input order (stability). -/
theorem sortEvents_spec (l : List Event) :
    (sortEvents l).Perm l ∧
      List.Pairwise (fun a b => unknownDate a = true → unknownDate b = true)
        (sortEvents l) ∧
      List.Pairwise (fun a b => ∀ da db, parse_date a.date.toList = some da →
        parse_date b.date.toList = some db → chronLE da db) (sortEvents l) ∧
      (sortEvents l).filter unknownDate = l.filter unknownDate := by
  have hsorted : List.Sorted evLE (l.insertionSort evLE) :=
    List.sorted_insertionSort evLE l
  refine ⟨List.perm_insertionSort evLE l, ?_, ?_, filter_insertionSort_unknown l⟩
  · refine hsorted.imp ?_
    intro a b hab hua
    rw [unknownDate_iff_max] at hua ⊢
    have h1 := sortScore_le b
    have h2 : sortScore a ≤ sortScore b := hab
    omega
  · refine hsorted.imp ?_
    intro a b hab da db hpa hpb
    have hsa : sortScore a = da.year * 10000 + da.month * 100 + da.day := by
      unfold sortScore
      rw [hpa]
    have hsb : sortScore b = db.year * 10000 + db.month * 100 + db.day := by
      unfold sortScore
      rw [hpb]
    rcases validDate_bounds (parse_date_valid hpa) with ⟨_, _, _, hma, _, hda⟩
    rcases validDate_bounds (parse_date_valid hpb) with ⟨_, _, _, hmb, _, hdb⟩
    refine (chronLE_iff_score hma hda hmb hdb).1 ?_
    rw [← hsa, ← hsb]
    exact hab

/-- C7, witness: the permutation clause at a concrete two-record list. -/
theorem sortEvents_spec_witness : (sortEvents [evA, evC]).Perm [evA, evC] :=
  (sortEvents_spec [evA, evC]).1

/-- C8: for a day-range date string of the shape
`DD(sep)DD. <MonthName> YYYY` with separator `.`, `/` or `./` (e.g.
`11./12. März 2026`) whose month name is recognized by the month map
(German or English, any case) and whose first day forms a valid calendar
date with that month and year, the date normalizer returns the concrete
date built from the first day of the range, that month and that year. -/
theorem parse_date_day_range (dcs d2cs name ycs sep : List Char) (m : Nat)
    (hsep : sep = ['.', '/'] ∨ sep = ['.'] ∨ sep = ['/'])
    (hd : dcs.length = 1 ∨ dcs.length = 2) (hdd : ∀ c ∈ dcs, isDigitChar c = true)
    (hd2 : d2cs.length = 1 ∨ d2cs.length = 2) (hdd2 : ∀ c ∈ d2cs, isDigitChar c = true)
    (hy : ycs.length = 4) (hyd : ∀ c ∈ ycs, isDigitChar c = true)
    (hm : monthMap (String.mk (name.map lowerChar)) = some m)
    (hv : validDate (listToNat ycs) m (listToNat dcs) = true) :
    parse_date (dcs ++ sep ++ d2cs ++ ['.', ' '] ++ name ++ ' ' :: ycs) =
      some (CalDate.mk (listToNat ycs) m (listToNat dcs)) := by
  obtain ⟨hnne, hwc⟩ := month_name_facts hm
  obtain ⟨n0, name', rfl⟩ : ∃ c t, name = c :: t := by
    cases name with
    | nil => exact absurd rfl hnne
    | cons c t => exact ⟨c, t, rfl⟩
  obtain ⟨w, x, y', z, rfl⟩ : ∃ a b c d, ycs = [a, b, c, d] := by
    cases ycs with
    | nil => simp at hy
    | cons a t1 =>
      cases t1 with
      | nil => simp at hy
      | cons b t2 =>
        cases t2 with
        | nil => simp at hy
        | cons c t3 =>
          cases t3 with
          | nil => simp at hy
          | cons d t4 =>
            cases t4 with
            | nil => exact ⟨a, b, c, d, rfl⟩
            | cons e t5 => simp at hy
  have hw1 : isDigitChar w = true := hyd w (by simp)
  have hx1 : isDigitChar x = true := hyd x (by simp)
  have hy1 : isDigitChar y' = true := hyd y' (by simp)
  have hz1 : isDigitChar z = true := hyd z (by simp)
  have hn0w : isWordChar n0 = true := hwc n0 (List.mem_cons_self n0 name')
  have hn0s : isSpaceChar n0 = false := not_space_of_word hn0w
  obtain ⟨l', hwEq⟩ := wordTakes_first hwc hnne (by decide : isWordChar ' ' = false)
    [w, x, y', z]
  simp only [List.cons_append] at hwEq
  have hsw : isSpaceChar w = false := not_space_of_digit hw1
  have hldot : isDigitChar '.' = false := by decide
  have hlslash : isDigitChar '/' = false := by decide
  have hlspace : isDigitChar ' ' = false := by decide
  have hlsp : isSpaceChar ' ' = true := by decide
  have hlsd : ¬(('/' : Char) = '.') := by decide
  have hsent : sentinel.toList = ['S', 'e', 'e', ' ', 'd', 'e', 't', 'a', 'i', 'l', 's'] := rfl
  have hsent2 : sentinel.data = ['S', 'e', 'e', ' ', 'd', 'e', 't', 'a', 'i', 'l', 's'] := rfl
  simp only [List.map_cons] at hm
  rcases hd with hd | hd
  · obtain ⟨a, rfl⟩ := List.length_eq_one.1 hd
    have ha : isDigitChar a = true := hdd a (by simp)
    have haS : ¬(a = 'S') := digit_ne ha (by decide)
    rcases hd2 with hd2 | hd2
    · obtain ⟨p, rfl⟩ := List.length_eq_one.1 hd2
      have hp : isDigitChar p = true := hdd2 p (by simp)
      have hpn : ¬(p = '.') := digit_ne hp (by decide)
      have hpn2 : ¬(p = '/') := digit_ne hp (by decide)
      have hps : isSpaceChar p = false := not_space_of_digit hp
      rcases hsep with rfl | rfl | rfl <;>
        simp [parse_date, parseP1, parseP2, matchP1, matchP2, take2or1, optChar,
          spacesSplits, optDigits12, spacesPlus, digits4, firstSome?, headDot,
          hwEq, hm, hv, ha, haS, hp, hpn, hpn2, hps, hw1, hx1, hy1, hz1, hn0s,
          hsw, hldot, hlslash, hlspace, hlsp, hlsd, hsent, hsent2]
    · obtain ⟨p, q, rfl⟩ := List.length_eq_two.1 hd2
      have hp : isDigitChar p = true := hdd2 p (by simp)
      have hq : isDigitChar q = true := hdd2 q (by simp)
      have hpn : ¬(p = '.') := digit_ne hp (by decide)
      have hpn2 : ¬(p = '/') := digit_ne hp (by decide)
      have hqn : ¬(q = '.') := digit_ne hq (by decide)
      have hps : isSpaceChar p = false := not_space_of_digit hp
      rcases hsep with rfl | rfl | rfl <;>
        simp [parse_date, parseP1, parseP2, matchP1, matchP2, take2or1, optChar,
          spacesSplits, optDigits12, spacesPlus, digits4, firstSome?, headDot,
          hwEq, hm, hv, ha, haS, hp, hq, hpn, hpn2, hqn, hps, hw1, hx1, hy1,
          hz1, hn0s, hsw, hldot, hlslash, hlspace, hlsp, hlsd, hsent, hsent2]
  · obtain ⟨a, b, rfl⟩ := List.length_eq_two.1 hd
    have ha : isDigitChar a = true := hdd a (by simp)
    have hb : isDigitChar b = true := hdd b (by simp)
    have haS : ¬(a = 'S') := digit_ne ha (by decide)
    have hbn : ¬(b = '.') := digit_ne hb (by decide)
    rcases hd2 with hd2 | hd2
    · obtain ⟨p, rfl⟩ := List.length_eq_one.1 hd2
      have hp : isDigitChar p = true := hdd2 p (by simp)
      have hpn : ¬(p = '.') := digit_ne hp (by decide)
      have hpn2 : ¬(p = '/') := digit_ne hp (by decide)
      have hps : isSpaceChar p = false := not_space_of_digit hp
      rcases hsep with rfl | rfl | rfl <;>
        simp [parse_date, parseP1, parseP2, matchP1, matchP2, take2or1, optChar,
          spacesSplits, optDigits12, spacesPlus, digits4, firstSome?, headDot,
          hwEq, hm, hv, ha, hb, haS, hbn, hp, hpn, hpn2, hps, hw1, hx1, hy1,
          hz1, hn0s, hsw, hldot, hlslash, hlspace, hlsp, hlsd, hsent, hsent2]
    · obtain ⟨p, q, rfl⟩ := List.length_eq_two.1 hd2
      have hp : isDigitChar p = true := hdd2 p (by simp)
      have hq : isDigitChar q = true := hdd2 q (by simp)
      have hpn : ¬(p = '.') := digit_ne hp (by decide)
      have hpn2 : ¬(p = '/') := digit_ne hp (by decide)
      have hqn : ¬(q = '.') := digit_ne hq (by decide)
      have hps : isSpaceChar p = false := not_space_of_digit hp
      rcases hsep with rfl | rfl | rfl <;>
        simp [parse_date, parseP1, parseP2, matchP1, matchP2, take2or1, optChar,
          spacesSplits, optDigits12, spacesPlus, digits4, firstSome?, headDot,
          hwEq, hm, hv, ha, hb, haS, hbn, hp, hq, hpn, hpn2, hqn, hps, hw1,
          hx1, hy1, hz1, hn0s, hsw, hldot, hlslash, hlspace, hlsp, hlsd,
          hsent, hsent2]

/-- C8, witness: `11./12. März 2026` parses to 11 March 2026. -/
theorem parse_date_day_range_witness :
    parse_date "11./12. März 2026".toList = some (CalDate.mk 2026 3 11) := by
  have h := parse_date_day_range ['1', '1'] ['1', '2'] "März".toList "2026".toList
    ['.', '/'] 3 (Or.inl rfl) (Or.inr rfl) (by decide) (Or.inr rfl) (by decide)
    (by decide) (by decide) (by decide) (by decide)
  exact h

/-- C10: the `DD.MM.YYYY` rule matches by prefix only — any string that
begins with a valid `DD.MM.YYYY` calendar date parses to exactly that
date, whatever characters follow the ten-character prefix. -/
theorem parse_date_ignores_tail (d1 d2 m1 m2 y1 y2 y3 y4 : Char) (tail : List Char)
    (hd1 : isDigitChar d1 = true) (hd2 : isDigitChar d2 = true)
    (hm1 : isDigitChar m1 = true) (hm2 : isDigitChar m2 = true)
    (hy1 : isDigitChar y1 = true) (hy2 : isDigitChar y2 = true)
    (hy3 : isDigitChar y3 = true) (hy4 : isDigitChar y4 = true)
    (hv : validDate (listToNat [y1, y2, y3, y4]) (listToNat [m1, m2])
      (listToNat [d1, d2]) = true) :
    parse_date ([d1, d2, '.', m1, m2, '.', y1, y2, y3, y4] ++ tail) =
      some (CalDate.mk (listToNat [y1, y2, y3, y4]) (listToNat [m1, m2])
        (listToNat [d1, d2])) := by
  have hguard : ¬(([d1, d2, '.', m1, m2, '.', y1, y2, y3, y4] ++ tail) = ([] : List Char)
      ∨ ([d1, d2, '.', m1, m2, '.', y1, y2, y3, y4] ++ tail) = sentinel.toList) := by
    rintro (h | h)
    · simp at h
    · have hd1S : d1 = 'S' := by
        have h' := congrArg (fun l : List Char => l.headD ' ') h
        simpa using h'
      rw [hd1S] at hd1
      exact absurd hd1 (by decide)
  have hp1 := matchP1_ddmmyyyy d1 d2 m1 m2 y1 y2 y3 y4 tail
    hd1 hd2 hm1 hm2 hy1 hy2 hy3 hy4
  unfold parse_date parseP1
  rw [if_neg hguard, hp1]
  simp [hv]

/-- C10, witness: `10.03.2026 - 12.03.2026` parses to 10 March 2026,
the trailing range end being ignored. -/
theorem parse_date_ignores_tail_witness :
    parse_date "10.03.2026 - 12.03.2026".toList = some (CalDate.mk 2026 3 10) := by
  have h := parse_date_ignores_tail '1' '0' '0' '3' '2' '0' '2' '6'
    " - 12.03.2026".toList (by decide) (by decide) (by decide) (by decide)
    (by decide) (by decide) (by decide) (by decide) (by decide)
  exact h

end EventMon
